import Mathlib

/-!
Shallow embedding of `src/byte_packet_buffer.rs`: a bounded byte cursor over a
fixed 512-byte buffer and the compressed domain-name (qname) decoder built on
it.  Bytes are modelled as `Nat` (a `u8` value is always `< 256`; theorems that
depend on byte values carry that bound as a hypothesis or hold regardless).
Machine-integer overflow is made explicit with `% 65536` where the source
computes in `u16`.
-/

/-- The error enum `BytePacketBufferError` with its two variants. -/
inductive BytePacketBufferError where
  | endOfBuffer
  | jumpLimitExceeded
deriving DecidableEq, Repr

/-- `Error::source()` for `BytePacketBufferError`: the trait's default
implementation is not overridden, so it always returns `None`. -/
def errorSource (_ : BytePacketBufferError) : Option String := none

/-- The `Display` implementation: `write!(f, "{:?}", self.source())`, i.e. the
`Debug` rendering of `self.source()`.  Since `errorSource` is always `none`,
this is the `Debug` form of `None`. -/
def displayError (e : BytePacketBufferError) : String :=
  match errorSource e with
  | none => "None"
  | some s => "Some(" ++ s ++ ")"

/-- The struct `BytePacketBuffer { buf: [u8; 512], pos: usize }`.  The array is
modelled as a function from index to byte value; only indices `< 512` are ever
dereferenced by the bounds-checked operations. -/
structure BytePacketBuffer where
  buf : Nat → Nat
  pos : Nat

namespace BytePacketBuffer

/-- `BytePacketBuffer::new()`: zeroed buffer, position 0. -/
def new : BytePacketBuffer := ⟨fun _ => 0, 0⟩

/-- `fn step(&mut self, steps: usize) { self.pos += steps; }` -/
def step (self : BytePacketBuffer) (steps : Nat) : BytePacketBuffer :=
  { self with pos := self.pos + steps }

/-- `fn seek(&mut self, pos: usize) { self.pos = pos; }` -/
def seek (self : BytePacketBuffer) (pos : Nat) : BytePacketBuffer :=
  { self with pos := pos }

/-- `fn read(&mut self) -> Result<u8>`: fail with `EndOfBuffer` if
`self.pos >= 512`, else return the byte at `pos` and advance by one.  The pair
returns the result together with the (possibly mutated) receiver, mirroring
`&mut self`. -/
def read (self : BytePacketBuffer) :
    Except BytePacketBufferError Nat × BytePacketBuffer :=
  if self.pos ≥ 512 then (.error .endOfBuffer, self)
  else (.ok (self.buf self.pos), { self with pos := self.pos + 1 })

/-- `fn get(&mut self, pos: usize) -> Result<u8>`: bounds-checked peek, the
position is not moved (the body never mutates `self`). -/
def get (self : BytePacketBuffer) (pos : Nat) :
    Except BytePacketBufferError Nat :=
  if pos ≥ 512 then .error .endOfBuffer
  else .ok (self.buf pos)

/-- `fn get_range(&mut self, start: usize, len: usize) -> Result<&[u8]>`:
fails with `EndOfBuffer` when `start + len >= 512`, else returns the slice
`&self.buf[start..start + len]`; the position is not moved. -/
def get_range (self : BytePacketBuffer) (start len : Nat) :
    Except BytePacketBufferError (List Nat) :=
  if start + len ≥ 512 then .error .endOfBuffer
  else .ok ((List.range len).map (fun i => self.buf (start + i)))

/-- `fn read_u16(&mut self) -> Result<u16>`:
`((self.read()? as u16) << 8) | (self.read()? as u16)`.  The `?` early return
keeps the mutations performed so far, hence the state is threaded through the
error case as well.  The byte values are `< 256` for a real `u8` array, so the
`u16` combination cannot wrap and is a plain `Nat` expression. -/
def read_u16 (self : BytePacketBuffer) :
    Except BytePacketBufferError Nat × BytePacketBuffer :=
  match read self with
  | (.error e, s1) => (.error e, s1)
  | (.ok hi, s1) =>
    match read s1 with
    | (.error e, s2) => (.error e, s2)
    | (.ok lo, s2) => (.ok ((hi <<< 8) ||| lo), s2)

/-- `fn read_u32(&mut self) -> Result<u32>`: four sequential reads combined
big-endian (`<< 24`, `<< 16`, `<< 8`, `<< 0`). -/
def read_u32 (self : BytePacketBuffer) :
    Except BytePacketBufferError Nat × BytePacketBuffer :=
  match read self with
  | (.error e, s1) => (.error e, s1)
  | (.ok b0, s1) =>
    match read s1 with
    | (.error e, s2) => (.error e, s2)
    | (.ok b1, s2) =>
      match read s2 with
      | (.error e, s3) => (.error e, s3)
      | (.ok b2, s3) =>
        match read s3 with
        | (.error e, s4) => (.error e, s4)
        | (.ok b3, s4) =>
          (.ok ((b0 <<< 24) ||| (b1 <<< 16) ||| (b2 <<< 8) ||| (b3 <<< 0)), s4)

end BytePacketBuffer

/-- Lowercasing of one byte as `str::to_lowercase` acts on an ASCII character:
`A`–`Z` (65–90) maps to `a`–`z`, everything else is unchanged. -/
def lowerByte (b : Nat) : Nat :=
  if 65 ≤ b ∧ b ≤ 90 then b + 32 else b

/-- Model of `String::from_utf8_lossy(bytes).to_lowercase()`.  For ASCII bytes
(`< 128`) this is exact: lossy UTF-8 decoding is the identity on ASCII and
Unicode lowercasing of an ASCII character is the `A`–`Z` → `a`–`z` map.
(Theorems about the decoded text carry the ASCII bound; theorems about
positions, errors and termination do not depend on this rendering.) -/
def asciiLower (bs : List Nat) : String :=
  String.mk (bs.map (fun b => Char.ofNat (lowerByte b)))

/-- The jump-target computation on line 122 of the source, in `u16`
arithmetic: `(((len as u16) * 0xC0) << 8) | b2`.  Both the multiplication and
the shift wrap modulo `2^16`. -/
def codeJumpOffset (len b2 : Nat) : Nat :=
  ((((len % 65536) * 0xC0) % 65536) <<< 8) % 65536 ||| b2

/-- Modelled from the spec: the pointer-offset computation the spec prescribes
("mask the length byte to its low 6 bits and shift left by 8 before combining
with the next byte"), i.e. `((len & 0x3F) << 8) | b2`.  Stated only to compare
with `codeJumpOffset`. -/
def specJumpOffset (len b2 : Nat) : Nat :=
  ((len &&& 0x3F) <<< 8) ||| b2

namespace BytePacketBuffer

/-- The loop of `fn read_qname`, with an explicit fuel argument making the
recursion structural; `none` means the fuel ran out (proved impossible for the
fuel used by `read_qname`).  State threaded exactly as in the source: `pos` is
the local reading position, `self` carries the cursor mutated by `seek`,
`outstr` is appended to, `delim`/`jumped`/`jumps` are the loop locals;
`max_jumps = 5`. -/
def readQnameLoop (self : BytePacketBuffer) (fuel pos : Nat) (jumped : Bool)
    (jumps : Nat) (delim outstr : String) :
    Option (Except BytePacketBufferError Unit × BytePacketBuffer × String) :=
  match fuel with
  | 0 => none
  | fuel + 1 =>
    if jumps > 5 then some (.error .jumpLimitExceeded, self, outstr)
    else
      match get self pos with
      | .error e => some (.error e, self, outstr)
      | .ok len =>
        if len &&& 0xC0 == 0xC0 then
          let self := if !jumped then seek self (pos + 2) else self
          match get self (pos + 1) with
          | .error e => some (.error e, self, outstr)
          | .ok b2 =>
            readQnameLoop self fuel (codeJumpOffset len b2) true (jumps + 1)
              delim outstr
        else
          let pos := pos + 1
          if len == 0 then
            some (.ok (), if jumped then self else seek self pos, outstr)
          else
            let outstr := outstr ++ delim
            match get_range self pos len with
            | .error e => some (.error e, self, outstr)
            | .ok bytes =>
              readQnameLoop self fuel (pos + len) jumped jumps "."
                (outstr ++ asciiLower bytes)

/-- `fn read_qname(&mut self, outstr: &mut String)`: run the loop from the
cursor's current position with `jumped = false`, `jumps = 0`, empty delimiter.
The fuel 4096 is sufficient on every input (see the termination theorem). -/
def read_qname (self : BytePacketBuffer) (outstr : String) :
    Option (Except BytePacketBufferError Unit × BytePacketBuffer × String) :=
  readQnameLoop self 4096 self.pos false 0 "" outstr

/-- Instrumented twin of `readQnameLoop`: identical control flow and state, but
additionally returns the final jump count and the buffer position of the first
compression pointer's length byte (`none` when no pointer was followed).  The
projection lemma ties it to `readQnameLoop`. -/
def readQnameLoopI (self : BytePacketBuffer) (fuel pos : Nat) (jumped : Bool)
    (jumps : Nat) (delim outstr : String) (firstPtr : Option Nat) :
    Option (Except BytePacketBufferError Unit × BytePacketBuffer × String ×
      Nat × Option Nat) :=
  match fuel with
  | 0 => none
  | fuel + 1 =>
    if jumps > 5 then
      some (.error .jumpLimitExceeded, self, outstr, jumps, firstPtr)
    else
      match get self pos with
      | .error e => some (.error e, self, outstr, jumps, firstPtr)
      | .ok len =>
        if len &&& 0xC0 == 0xC0 then
          let firstPtr := if jumped then firstPtr else some pos
          let self := if !jumped then seek self (pos + 2) else self
          match get self (pos + 1) with
          | .error e => some (.error e, self, outstr, jumps, firstPtr)
          | .ok b2 =>
            readQnameLoopI self fuel (codeJumpOffset len b2) true (jumps + 1)
              delim outstr firstPtr
        else
          let pos := pos + 1
          if len == 0 then
            some (.ok (), if jumped then self else seek self pos, outstr,
              jumps, firstPtr)
          else
            let outstr := outstr ++ delim
            match get_range self pos len with
            | .error e => some (.error e, self, outstr, jumps, firstPtr)
            | .ok bytes =>
              readQnameLoopI self fuel (pos + len) jumped jumps "."
                (outstr ++ asciiLower bytes) firstPtr

end BytePacketBuffer

/-! Concrete buffers used by counterexamples and witnesses. -/

/-- Wire bytes `3 "www" 6 "google" 3 "com" 0` at position 0, followed at
position 16 by a compression pointer `0xC0 0x00` to offset 0. -/
def exampleList : List Nat :=
  [3, 119, 119, 119, 6, 103, 111, 111, 103, 108, 101, 3, 99, 111, 109, 0,
   0xC0, 0x00]

/-- The example buffer as an index-to-byte function (zero padded). -/
def exampleBuf : Nat → Nat := fun i => exampleList.getD i 0

/-- A buffer with a pointer cycle: position 0 points to position 2 and
position 2 points back to position 0. -/
def cycleBuf : Nat → Nat := fun i => [0xC0, 0x02, 0xC0, 0x00].getD i 0

/-- A buffer whose first two bytes are the compression pointer `0xC1 0x00`:
per the wire format it denotes absolute offset `0x0100 = 256`. -/
def ptrHighBitsBuf : Nat → Nat := fun i => if i = 0 then 0xC1 else 0

/-- Bytes `[0x01, 0x02]` at the start (zero padded). -/
def beBuf16 : Nat → Nat := fun i => [1, 2].getD i 0

/-- Bytes `[0x00, 0x00, 0x01, 0x00]` at the start (zero padded). -/
def beBuf32 : Nat → Nat := fun i => [0, 0, 1, 0].getD i 0

namespace BytePacketBuffer

/-! Helper inversion and unfolding lemmas for the cursor primitives. -/

theorem read_of_lt (self : BytePacketBuffer) (h : self.pos < 512) :
    read self = (.ok (self.buf self.pos), { self with pos := self.pos + 1 }) := by
  unfold read; rw [if_neg (by omega)]

theorem read_of_ge (self : BytePacketBuffer) (h : self.pos ≥ 512) :
    read self = (.error .endOfBuffer, self) := by
  unfold read; rw [if_pos h]

theorem get_of_lt {self : BytePacketBuffer} {pos : Nat} (h : pos < 512) :
    get self pos = .ok (self.buf pos) := by
  unfold get; rw [if_neg (by omega)]

theorem get_of_ge {self : BytePacketBuffer} {pos : Nat} (h : pos ≥ 512) :
    get self pos = .error .endOfBuffer := by
  unfold get; rw [if_pos h]

theorem get_ok_inv {self : BytePacketBuffer} {pos v : Nat}
    (h : get self pos = .ok v) : pos < 512 ∧ v = self.buf pos := by
  unfold get at h
  by_cases hp : pos ≥ 512
  · rw [if_pos hp] at h; exact absurd h (by simp)
  · rw [if_neg hp] at h
    exact ⟨by omega, by injection h with h; exact h.symm⟩

theorem get_range_of_lt {self : BytePacketBuffer} {start len : Nat}
    (h : start + len < 512) :
    get_range self start len =
      .ok ((List.range len).map (fun i => self.buf (start + i))) := by
  unfold get_range; rw [if_neg (by omega)]

theorem get_range_of_ge {self : BytePacketBuffer} {start len : Nat}
    (h : start + len ≥ 512) :
    get_range self start len = .error .endOfBuffer := by
  unfold get_range; rw [if_pos h]

theorem get_range_ok_inv {self : BytePacketBuffer} {start len : Nat}
    {bs : List Nat} (h : get_range self start len = .ok bs) :
    start + len < 512 ∧
      bs = (List.range len).map (fun i => self.buf (start + i)) := by
  unfold get_range at h
  by_cases hp : start + len ≥ 512
  · rw [if_pos hp] at h; exact absurd h (by simp)
  · rw [if_neg hp] at h
    exact ⟨by omega, by injection h with h; exact h.symm⟩

end BytePacketBuffer

/-! Claim theorems: error display, range access, byte reads. -/

/-- C6: the `Display` rendering of the two error kinds.  The implementation
prints the `Debug` form of `self.source()`, which is always `None` because
`source` is not overridden, so both kinds render as the absent-cause
placeholder `"None"` and the renderings do not differ. -/
theorem displayError_not_distinct :
    displayError .endOfBuffer = "None" ∧
    displayError .jumpLimitExceeded = "None" ∧
    displayError .endOfBuffer = displayError .jumpLimitExceeded :=
  ⟨rfl, rfl, rfl⟩

/-- C1: the jump-target computation.  For the pointer bytes `0xC1 0x00` the
source's `(((len as u16) * 0xC0) << 8) | b2` yields `49152`, while the 14-bit
offset `((len & 0x3F) << 8) | b2` prescribed by the wire format is `256`; the
two disagree, and decoding a name whose first bytes are `0xC1 0x00` jumps to
49152 and fails with `EndOfBuffer` instead of following the pointer to
offset 256 (which holds a terminating zero label). -/
theorem codeJumpOffset_ne_specJumpOffset :
    codeJumpOffset 0xC1 0x00 = 49152 ∧
    specJumpOffset 0xC1 0x00 = 256 ∧
    codeJumpOffset 0xC1 0x00 ≠ specJumpOffset 0xC1 0x00 ∧
    ptrHighBitsBuf 256 = 0 ∧
    BytePacketBuffer.read_qname ⟨ptrHighBitsBuf, 0⟩ "" =
      some (.error .endOfBuffer, ⟨ptrHighBitsBuf, 2⟩, "") :=
  ⟨rfl, rfl, by decide, rfl, rfl⟩

namespace BytePacketBuffer

/-- C5: `get_range start len` fails with `EndOfBuffer` exactly when
`start + len ≥ 512` (so the range ending exactly at index 511, with
`start + len = 512`, is rejected), and otherwise returns the `len` bytes
starting at `start`; it never moves the position (its result type carries no
state, the body never mutates the receiver). -/
theorem get_range_bounds (self : BytePacketBuffer) (start len : Nat) :
    (start + len ≥ 512 → get_range self start len = .error .endOfBuffer) ∧
    (start + len < 512 → get_range self start len =
      .ok ((List.range len).map (fun i => self.buf (start + i)))) :=
  ⟨fun h => get_range_of_ge h, fun h => get_range_of_lt h⟩

/-- Witness for C5 at concrete inputs: the full-buffer range `start = 0`,
`len = 512` (reaching exactly index 511) is rejected, while `start = 0`,
`len = 3` succeeds. -/
theorem get_range_bounds_witness :
    get_range ⟨exampleBuf, 0⟩ 0 512 = .error .endOfBuffer ∧
    get_range ⟨exampleBuf, 0⟩ 0 3 = .ok [3, 119, 119] :=
  ⟨(get_range_bounds ⟨exampleBuf, 0⟩ 0 512).1 (by decide),
   (get_range_bounds ⟨exampleBuf, 0⟩ 0 3).2 (by decide)⟩

/-- C7: `read` fails with `EndOfBuffer` iff the position is `≥ 512`, otherwise
returns the byte at the position and advances by exactly 1 (buffer contents
unchanged); `get p` fails with `EndOfBuffer` iff `p ≥ 512`, otherwise returns
the byte at `p` without touching any state. -/
theorem read_get_bounds (self : BytePacketBuffer) (p : Nat) :
    (self.pos ≥ 512 → read self = (.error .endOfBuffer, self)) ∧
    (self.pos < 512 → read self =
      (.ok (self.buf self.pos), { self with pos := self.pos + 1 })) ∧
    (p ≥ 512 → get self p = .error .endOfBuffer) ∧
    (p < 512 → get self p = .ok (self.buf p)) :=
  ⟨fun h => read_of_ge _ h, fun h => read_of_lt _ h,
   fun h => get_of_ge h, fun h => get_of_lt h⟩

/-- Witness for C7: a read at position 0 returns the byte there and advances
to 1; a read at position 512 fails leaving the state unchanged; `get` at 511
succeeds and at 512 fails. -/
theorem read_get_bounds_witness :
    read ⟨exampleBuf, 0⟩ = (.ok 3, ⟨exampleBuf, 1⟩) ∧
    read ⟨exampleBuf, 512⟩ = (.error .endOfBuffer, ⟨exampleBuf, 512⟩) ∧
    get ⟨exampleBuf, 0⟩ 511 = .ok 0 ∧
    get ⟨exampleBuf, 0⟩ 512 = .error .endOfBuffer :=
  ⟨(read_get_bounds ⟨exampleBuf, 0⟩ 0).2.1 (by decide),
   (read_get_bounds ⟨exampleBuf, 512⟩ 0).1 (by decide),
   (read_get_bounds ⟨exampleBuf, 0⟩ 511).2.2.2 (by decide),
   (read_get_bounds ⟨exampleBuf, 0⟩ 512).2.2.1 (by decide)⟩

/-- C8: when both/all constituent byte reads succeed (`pos + 2 ≤ 512`, resp.
`pos + 4 ≤ 512`), `read_u16` returns the two bytes at the position combined
big-endian (`first <<< 8 ||| second`) advancing the position by exactly 2, and
`read_u32` returns the four bytes combined big-endian advancing by exactly 4;
each fails with `EndOfBuffer` as soon as one constituent read fails. -/
theorem read_u16_u32_bigendian (self : BytePacketBuffer) :
    (self.pos + 2 ≤ 512 →
      (read_u16 self).1 = .ok ((self.buf self.pos <<< 8) |||
        self.buf (self.pos + 1)) ∧
      (read_u16 self).2.pos = self.pos + 2 ∧
      (read_u16 self).2.buf = self.buf) ∧
    (self.pos + 2 > 512 → (read_u16 self).1 = .error .endOfBuffer) ∧
    (self.pos + 4 ≤ 512 →
      (read_u32 self).1 = .ok ((self.buf self.pos <<< 24) |||
        (self.buf (self.pos + 1) <<< 16) ||| (self.buf (self.pos + 2) <<< 8) |||
        (self.buf (self.pos + 3) <<< 0)) ∧
      (read_u32 self).2.pos = self.pos + 4 ∧
      (read_u32 self).2.buf = self.buf) ∧
    (self.pos + 4 > 512 → (read_u32 self).1 = .error .endOfBuffer) := by
  obtain ⟨b, p⟩ := self
  dsimp only
  refine ⟨fun h => ?_, fun h => ?_, fun h => ?_, fun h => ?_⟩
  · unfold read_u16
    rw [read_of_lt _ (by dsimp only; omega)]
    dsimp only
    rw [read_of_lt ⟨b, p + 1⟩ (by dsimp only; omega)]
    dsimp only
    exact ⟨rfl, by omega, rfl⟩
  · unfold read_u16
    by_cases h1 : p ≥ 512
    · rw [read_of_ge _ (by dsimp only; omega)]
    · rw [read_of_lt _ (by dsimp only; omega)]
      dsimp only
      rw [read_of_ge ⟨b, p + 1⟩ (by dsimp only; omega)]
  · unfold read_u32
    rw [read_of_lt _ (by dsimp only; omega)]
    dsimp only
    rw [read_of_lt ⟨b, p + 1⟩ (by dsimp only; omega)]
    dsimp only
    rw [read_of_lt ⟨b, p + 1 + 1⟩ (by dsimp only; omega)]
    dsimp only
    rw [read_of_lt ⟨b, p + 1 + 1 + 1⟩ (by dsimp only; omega)]
    dsimp only
    exact ⟨rfl, rfl, rfl⟩
  · unfold read_u32
    by_cases h1 : p ≥ 512
    · rw [read_of_ge _ (by dsimp only; omega)]
    · rw [read_of_lt _ (by dsimp only; omega)]
      dsimp only
      by_cases h2 : p + 1 ≥ 512
      · rw [read_of_ge ⟨b, p + 1⟩ (by dsimp only; omega)]
      · rw [read_of_lt ⟨b, p + 1⟩ (by dsimp only; omega)]
        dsimp only
        by_cases h3 : p + 2 ≥ 512
        · rw [read_of_ge ⟨b, p + 1 + 1⟩ (by dsimp only; omega)]
        · rw [read_of_lt ⟨b, p + 1 + 1⟩ (by dsimp only; omega)]
          dsimp only
          rw [read_of_ge ⟨b, p + 1 + 1 + 1⟩ (by dsimp only; omega)]

/-- Witness for C8: `read_u16` over bytes `[0x01, 0x02]` yields
`0x0102 = 258` and lands at position 2; `read_u32` over
`[0x00, 0x00, 0x01, 0x00]` yields `256` and lands at position 4; `read_u16`
starting at 511 fails. -/
theorem read_u16_u32_bigendian_witness :
    (read_u16 ⟨beBuf16, 0⟩).1 = .ok 0x0102 ∧
    (read_u16 ⟨beBuf16, 0⟩).2.pos = 2 ∧
    (read_u32 ⟨beBuf32, 0⟩).1 = .ok 256 ∧
    (read_u32 ⟨beBuf32, 0⟩).2.pos = 4 ∧
    (read_u16 ⟨beBuf16, 511⟩).1 = .error .endOfBuffer :=
  ⟨((read_u16_u32_bigendian ⟨beBuf16, 0⟩).1 (by decide)).1,
   ((read_u16_u32_bigendian ⟨beBuf16, 0⟩).1 (by decide)).2.1,
   ((read_u16_u32_bigendian ⟨beBuf32, 0⟩).2.2.1 (by decide)).1,
   ((read_u16_u32_bigendian ⟨beBuf32, 0⟩).2.2.1 (by decide)).2.1,
   (read_u16_u32_bigendian ⟨beBuf16, 511⟩).2.1 (by decide)⟩

/-- C10: a failing single-byte `read` leaves the cursor unchanged, but
`read_u16`/`read_u32` are not atomic on failure: the position stays advanced by
the number of constituent bytes read successfully before the failing one.  At
positions `≥ 512` nothing advances; `read_u16` at 511 fails having advanced to
512; `read_u32` at `509 ≤ pos < 512` fails having advanced to 512 (i.e. by the
`512 - pos` successful reads). -/
theorem multiByte_read_not_atomic (self : BytePacketBuffer) :
    (self.pos ≥ 512 →
      read self = (.error .endOfBuffer, self) ∧
      (read_u16 self).2 = self ∧ (read_u32 self).2 = self) ∧
    (self.pos = 511 →
      (read_u16 self).1 = .error .endOfBuffer ∧
      (read_u16 self).2.pos = self.pos + 1) ∧
    (509 ≤ self.pos → self.pos < 512 →
      (read_u32 self).1 = .error .endOfBuffer ∧
      (read_u32 self).2.pos = 512) := by
  obtain ⟨b, p⟩ := self
  dsimp only
  refine ⟨fun h => ?_, fun h => ?_, fun h1 h2 => ?_⟩
  · unfold read_u16 read_u32
    rw [read_of_ge _ (by dsimp only; omega)]
    exact ⟨rfl, rfl, rfl⟩
  · unfold read_u16
    rw [read_of_lt _ (by dsimp only; omega)]
    dsimp only
    rw [read_of_ge ⟨b, p + 1⟩ (by dsimp only; omega)]
    exact ⟨rfl, rfl⟩
  · unfold read_u32
    rw [read_of_lt _ (by dsimp only; omega)]
    dsimp only
    by_cases h3 : p + 1 ≥ 512
    · rw [read_of_ge ⟨b, p + 1⟩ (by dsimp only; omega)]
      exact ⟨rfl, by dsimp only; omega⟩
    · rw [read_of_lt ⟨b, p + 1⟩ (by dsimp only; omega)]
      dsimp only
      by_cases h4 : p + 2 ≥ 512
      · rw [read_of_ge ⟨b, p + 1 + 1⟩ (by dsimp only; omega)]
        exact ⟨rfl, by dsimp only; omega⟩
      · rw [read_of_lt ⟨b, p + 1 + 1⟩ (by dsimp only; omega)]
        dsimp only
        rw [read_of_ge ⟨b, p + 1 + 1 + 1⟩ (by dsimp only; omega)]
        exact ⟨rfl, by dsimp only; omega⟩

/-- Witness for C10: at position 512 a single `read` fails leaving the state
untouched; `read_u16` invoked at position 511 fails and leaves the position at
512; `read_u32` invoked at 510 fails and leaves the position at 512. -/
theorem multiByte_read_not_atomic_witness :
    read ⟨exampleBuf, 512⟩ = (.error .endOfBuffer, ⟨exampleBuf, 512⟩) ∧
    (read_u16 ⟨exampleBuf, 511⟩).1 = .error .endOfBuffer ∧
    (read_u16 ⟨exampleBuf, 511⟩).2.pos = 512 ∧
    (read_u32 ⟨exampleBuf, 510⟩).1 = .error .endOfBuffer ∧
    (read_u32 ⟨exampleBuf, 510⟩).2.pos = 512 :=
  ⟨((multiByte_read_not_atomic ⟨exampleBuf, 512⟩).1 (by decide)).1,
   ((multiByte_read_not_atomic ⟨exampleBuf, 511⟩).2.1 (by decide)).1,
   ((multiByte_read_not_atomic ⟨exampleBuf, 511⟩).2.1 (by decide)).2,
   ((multiByte_read_not_atomic ⟨exampleBuf, 510⟩).2.2 (by decide) (by decide)).1,
   ((multiByte_read_not_atomic ⟨exampleBuf, 510⟩).2.2 (by decide) (by decide)).2⟩

end BytePacketBuffer

namespace BytePacketBuffer

/-- Fuel bound for the decode loop: with `jumps` jumps already taken and local
position `pos`, `1 + (6 - jumps) * 515 + (512 - pos)` iterations always
suffice.  Each iteration either terminates, or consumes a jump (at most 6 in
total before `JumpLimitExceeded` fires), or moves the local position forward by
at least 2 while it must stay below 512 for the length-byte read to succeed. -/
theorem readQnameLoop_isSome :
    ∀ fuel pos jumps (self : BytePacketBuffer) (jumped : Bool)
      (delim outstr : String),
    1 + (6 - jumps) * 515 + (512 - pos) ≤ fuel →
    (readQnameLoop self fuel pos jumped jumps delim outstr).isSome := by
  intro fuel
  induction fuel with
  | zero => intro pos jumps self jumped delim outstr h; omega
  | succ n ih =>
    intro pos jumps self jumped delim outstr h
    unfold readQnameLoop
    by_cases hj : jumps > 5
    · rw [if_pos hj]; rfl
    · rw [if_neg hj]
      cases hget : get self pos with
      | error e => simp [hget]
      | ok len =>
        obtain ⟨hpos, -⟩ := get_ok_inv hget
        simp only [hget]
        by_cases hc : (len &&& 0xC0 == 0xC0) = true
        · rw [if_pos hc]
          cases hget2 : get (if !jumped then seek self (pos + 2) else self)
              (pos + 1) with
          | error e => simp [hget2]
          | ok b2 =>
            simp only [hget2]
            exact ih _ _ _ _ _ _ (by omega)
        · rw [if_neg hc]
          by_cases hz : (len == 0) = true
          · rw [if_pos hz]; rfl
          · rw [if_neg hz]
            have hlen : len ≠ 0 := by simpa using hz
            cases hgr : get_range self (pos + 1) len with
            | error e => simp [hgr]
            | ok bytes =>
              obtain ⟨hrange, -⟩ := get_range_ok_inv hgr
              simp only [hgr]
              exact ih _ _ _ _ _ _ (by omega)

/-- C9: `read_qname` terminates on every buffer content and starting position,
returning either success or an error: the fuel 4096 used by `read_qname` is
never exhausted, because jumps are bounded by the counter and the local
position strictly increases between bounds-checked reads. -/
theorem read_qname_terminates (self : BytePacketBuffer) (outstr : String) :
    ∃ r, read_qname self outstr = some r := by
  have h := readQnameLoop_isSome 4096 self.pos 0 self false "" outstr (by omega)
  exact Option.isSome_iff_exists.1 h

end BytePacketBuffer

namespace BytePacketBuffer

theorem get_error_inv {self : BytePacketBuffer} {pos : Nat}
    {e : BytePacketBufferError} (h : get self pos = .error e) :
    e = .endOfBuffer := by
  unfold get at h
  split at h
  · injection h with h; exact h.symm
  · exact absurd h (by simp)

theorem get_range_error_inv {self : BytePacketBuffer} {start len : Nat}
    {e : BytePacketBufferError} (h : get_range self start len = .error e) :
    e = .endOfBuffer := by
  unfold get_range at h
  split at h
  · injection h with h; exact h.symm
  · exact absurd h (by simp)

/-- The instrumented loop projects onto the plain loop: forgetting the jump
count and first-pointer position recovers `readQnameLoop`. -/
theorem readQnameLoopI_proj :
    ∀ fuel (self : BytePacketBuffer) pos (jumped : Bool) jumps
      (delim outstr : String) (firstPtr : Option Nat),
    readQnameLoop self fuel pos jumped jumps delim outstr =
      (readQnameLoopI self fuel pos jumped jumps delim outstr firstPtr).map
        (fun x => (x.1, x.2.1, x.2.2.1)) := by
  intro fuel
  induction fuel with
  | zero => intros; rfl
  | succ n ih =>
    intro self pos jumped jumps delim outstr firstPtr
    unfold readQnameLoop readQnameLoopI
    by_cases hj : jumps > 5
    · rw [if_pos hj, if_pos hj]; rfl
    · rw [if_neg hj, if_neg hj]
      cases hget : get self pos with
      | error e => simp [hget]
      | ok len =>
        simp only [hget]
        by_cases hc : (len &&& 0xC0 == 0xC0) = true
        · rw [if_pos hc, if_pos hc]
          cases hget2 : get (if !jumped then seek self (pos + 2) else self)
              (pos + 1) with
          | error e => simp [hget2]
          | ok b2 =>
            simp only [hget2]
            exact ih _ _ _ _ _ _ _
        · rw [if_neg hc, if_neg hc]
          by_cases hz : (len == 0) = true
          · rw [if_pos hz, if_pos hz]; rfl
          · rw [if_neg hz, if_neg hz]
            cases hgr : get_range self (pos + 1) len with
            | error e => simp [hgr]
            | ok bytes =>
              simp only [hgr]
              exact ih _ _ _ _ _ _ _

/-- Invariant of the instrumented loop: starting with `jumps ≤ 6`, the final
jump count `j` satisfies `jumps ≤ j ≤ 6`, and the run ends in
`JumpLimitExceeded` exactly when `j = 6`. -/
theorem readQnameLoopI_jumpLimit :
    ∀ fuel (self : BytePacketBuffer) pos (jumped : Bool) jumps
      (delim outstr : String) (fp0 : Option Nat) r s o j fp,
    jumps ≤ 6 →
    readQnameLoopI self fuel pos jumped jumps delim outstr fp0 =
      some (r, s, o, j, fp) →
    jumps ≤ j ∧ j ≤ 6 ∧ (r = .error .jumpLimitExceeded ↔ j = 6) := by
  intro fuel
  induction fuel with
  | zero => intro self pos jumped jumps delim outstr fp0 r s o j fp hle heq
            exact absurd heq (by simp [readQnameLoopI])
  | succ n ih =>
    intro self pos jumped jumps delim outstr fp0 r s o j fp hle heq
    unfold readQnameLoopI at heq
    by_cases hj : jumps > 5
    · rw [if_pos hj] at heq
      simp only [Option.some.injEq, Prod.mk.injEq] at heq
      obtain ⟨hr, -, -, hjj, -⟩ := heq
      subst hr; subst hjj
      exact ⟨le_refl _, by omega, by simp; omega⟩
    · rw [if_neg hj] at heq
      cases hget : get self pos with
      | error e =>
        simp only [hget] at heq
        simp only [Option.some.injEq, Prod.mk.injEq] at heq
        obtain ⟨hr, -, -, hjj, -⟩ := heq
        have he := get_error_inv hget
        subst he; subst hr; subst hjj
        refine ⟨le_refl _, by omega, ?_⟩
        constructor
        · intro hcontra; exact absurd (by injection hcontra) (by simp)
        · intro hcontra; omega
      | ok len =>
        simp only [hget] at heq
        by_cases hc : (len &&& 0xC0 == 0xC0) = true
        · rw [if_pos hc] at heq
          cases hget2 : get (if !jumped then seek self (pos + 2) else self)
              (pos + 1) with
          | error e =>
            rw [hget2] at heq
            simp only [Option.some.injEq, Prod.mk.injEq] at heq
            obtain ⟨hr, -, -, hjj, -⟩ := heq
            have he := get_error_inv hget2
            subst he; subst hr; subst hjj
            refine ⟨le_refl _, by omega, ?_⟩
            constructor
            · intro hcontra; exact absurd (by injection hcontra) (by simp)
            · intro hcontra; omega
          | ok b2 =>
            rw [hget2] at heq
            have := ih _ _ _ _ _ _ _ _ _ _ _ _ (by omega) heq
            exact ⟨by omega, this.2.1, this.2.2⟩
        · rw [if_neg hc] at heq
          by_cases hz : (len == 0) = true
          · rw [if_pos hz] at heq
            simp only [Option.some.injEq, Prod.mk.injEq] at heq
            obtain ⟨hr, -, -, hjj, -⟩ := heq
            subst hr; subst hjj
            refine ⟨le_refl _, by omega, ?_⟩
            constructor
            · intro hcontra; exact absurd hcontra (by simp)
            · intro hcontra; omega
          · rw [if_neg hz] at heq
            cases hgr : get_range self (pos + 1) len with
            | error e =>
              rw [hgr] at heq
              simp only [Option.some.injEq, Prod.mk.injEq] at heq
              obtain ⟨hr, -, -, hjj, -⟩ := heq
              have he := get_range_error_inv hgr
              subst he; subst hr; subst hjj
              refine ⟨le_refl _, by omega, ?_⟩
              constructor
              · intro hcontra; exact absurd (by injection hcontra) (by simp)
              · intro hcontra; omega
            | ok bytes =>
              rw [hgr] at heq
              exact ih _ _ _ _ _ _ _ _ _ _ _ _ (by omega) heq

/-- C3: `read_qname` fails with `JumpLimitExceeded` exactly when the number of
compression pointers followed exceeds `max_jumps = 5`, i.e. when the
instrumented run records `j = 6` hops (`j ≤ 6` always, so the loop never runs
unboundedly).  The witness instantiates this on a two-pointer cycle. -/
theorem read_qname_jumpLimit (self : BytePacketBuffer) (outstr : String)
    {r : Except BytePacketBufferError Unit} {s : BytePacketBuffer}
    {o : String} {j : Nat} {fp : Option Nat}
    (h : readQnameLoopI self 4096 self.pos false 0 "" outstr none =
      some (r, s, o, j, fp)) :
    read_qname self outstr = some (r, s, o) ∧
    (r = .error .jumpLimitExceeded ↔ j = 6) ∧ j ≤ 6 := by
  have hp := readQnameLoopI_proj 4096 self self.pos false 0 "" outstr none
  have hi := readQnameLoopI_jumpLimit 4096 self self.pos false 0 "" outstr none
    r s o j fp (by omega) h
  refine ⟨?_, hi.2.2, hi.2.1⟩
  rw [read_qname, hp, h]
  rfl

/-- Witness for C3: the buffer where position 0 holds a pointer to position 2
and position 2 holds a pointer back to 0.  Decoding at 0 yields
`JumpLimitExceeded` after exactly `max_jumps + 1 = 6` hops; the cursor sits at
2 (fixed by the first jump). -/
theorem read_qname_jumpLimit_witness :
    read_qname ⟨cycleBuf, 0⟩ "" =
      some (.error .jumpLimitExceeded, ⟨cycleBuf, 2⟩, "") ∧
    ((Except.error .jumpLimitExceeded : Except BytePacketBufferError Unit) =
      .error .jumpLimitExceeded ↔ (6 : Nat) = 6) ∧ (6 : Nat) ≤ 6 :=
  read_qname_jumpLimit ⟨cycleBuf, 0⟩ "" (by rfl)

end BytePacketBuffer

namespace BytePacketBuffer

/-- Position invariant of the instrumented loop on successful runs: the buffer
content is unchanged; once `jumped` is set the cursor and the recorded first
pointer never change; starting un-jumped with no pointer recorded, the run
either followed no pointer and ends with the cursor just past a terminating
zero length byte, or ends with the cursor two bytes past the first pointer. -/
theorem readQnameLoopI_pos_inv :
    ∀ fuel (self : BytePacketBuffer) pos (jumped : Bool) jumps
      (delim outstr : String) (fp0 : Option Nat) s o j fp,
    readQnameLoopI self fuel pos jumped jumps delim outstr fp0 =
      some (.ok (), s, o, j, fp) →
    s.buf = self.buf ∧
    (jumped = true → fp = fp0 ∧ s.pos = self.pos) ∧
    (jumped = false → fp0 = none →
      ((fp = none ∧ pos < s.pos ∧ self.buf (s.pos - 1) = 0 ∧ s.pos - 1 < 512) ∨
       (∃ q, fp = some q ∧ s.pos = q + 2 ∧ self.buf q &&& 0xC0 = 0xC0))) := by
  intro fuel
  induction fuel with
  | zero => intro self pos jumped jumps delim outstr fp0 s o j fp heq
            exact absurd heq (by simp [readQnameLoopI])
  | succ n ih =>
    intro self pos jumped jumps delim outstr fp0 s o j fp heq
    unfold readQnameLoopI at heq
    by_cases hj : jumps > 5
    · rw [if_pos hj] at heq; simp at heq
    · rw [if_neg hj] at heq
      cases hget : get self pos with
      | error e => simp only [hget] at heq; simp at heq
      | ok len =>
        obtain ⟨hpos, hlenv⟩ := get_ok_inv hget
        simp only [hget] at heq
        by_cases hc : (len &&& 0xC0 == 0xC0) = true
        · rw [if_pos hc] at heq
          cases hget2 : get (if !jumped then seek self (pos + 2) else self)
              (pos + 1) with
          | error e => simp only [hget2] at heq; simp at heq
          | ok b2 =>
            rw [hget2] at heq
            have IH := ih _ _ _ _ _ _ _ _ _ _ _ heq
            have hbuf : (if !jumped then seek self (pos + 2) else self).buf =
                self.buf := by cases jumped <;> rfl
            refine ⟨IH.1.trans hbuf, fun hj' => ?_, fun hj' hfp0 => ?_⟩
            · subst hj'
              have := IH.2.1 rfl
              exact ⟨this.1, this.2⟩
            · subst hj'; subst hfp0
              right
              have := IH.2.1 rfl
              refine ⟨pos, this.1, ?_, ?_⟩
              · have : s.pos = (seek self (pos + 2)).pos := this.2
                simpa [seek] using this
              · rw [← hlenv]
                simpa using hc
        · rw [if_neg hc] at heq
          by_cases hz : (len == 0) = true
          · rw [if_pos hz] at heq
            simp only [Option.some.injEq, Prod.mk.injEq, true_and] at heq
            obtain ⟨hs, ho, hjj, hfp⟩ := heq
            have hlen0 : len = 0 := by simpa using hz
            refine ⟨?_, fun hj' => ?_, fun hj' hfp0 => ?_⟩
            · rw [← hs]; cases jumped <;> rfl
            · subst hj'; simp only [if_pos rfl] at hs
              exact ⟨hfp.symm, by rw [← hs]; simp⟩
            · subst hj'
              simp only [Bool.false_eq_true, if_neg] at hs
              left
              refine ⟨by rw [← hfp, hfp0], ?_, ?_, ?_⟩
              · rw [← hs]; simp [seek]
              · rw [← hs]; simpa [seek, hlen0] using hlenv.symm
              · rw [← hs]; simpa [seek] using hpos
          · rw [if_neg hz] at heq
            cases hgr : get_range self (pos + 1) len with
            | error e => simp only [hgr] at heq; simp at heq
            | ok bytes =>
              rw [hgr] at heq
              have IH := ih _ _ _ _ _ _ _ _ _ _ _ heq
              refine ⟨IH.1, IH.2.1, fun hj' hfp0 => ?_⟩
              rcases IH.2.2 hj' hfp0 with ⟨h0, h1, h2, h3⟩ | hr
              · exact Or.inl ⟨h0, by omega, h2, h3⟩
              · exact Or.inr hr

/-- C2: on every successful `read_qname` run, the buffer content is unchanged,
and the final cursor position is: just past the terminating zero length byte
when no compression pointer was followed (`fp = none`), or exactly the first
pointer's length-byte position plus 2 when at least one pointer was followed
(`fp = some q`; the position is fixed at the first jump and never moved
again). -/
theorem read_qname_cursor (self : BytePacketBuffer) (outstr : String)
    {s : BytePacketBuffer} {o : String} {j : Nat} {fp : Option Nat}
    (h : readQnameLoopI self 4096 self.pos false 0 "" outstr none =
      some (.ok (), s, o, j, fp)) :
    read_qname self outstr = some (.ok (), s, o) ∧
    s.buf = self.buf ∧
    (fp = none →
      self.pos < s.pos ∧ self.buf (s.pos - 1) = 0 ∧ s.pos - 1 < 512) ∧
    (∀ q, fp = some q → s.pos = q + 2 ∧ self.buf q &&& 0xC0 = 0xC0) := by
  have hp := readQnameLoopI_proj 4096 self self.pos false 0 "" outstr none
  have hi := readQnameLoopI_pos_inv 4096 self self.pos false 0 "" outstr none
    s o j fp h
  obtain ⟨hbuf, -, hmain⟩ := hi
  have hd := hmain rfl rfl
  refine ⟨by rw [read_qname, hp, h]; rfl, hbuf, fun hfp => ?_, fun q hq => ?_⟩
  · rcases hd with ⟨-, h1, h2, h3⟩ | ⟨q, hq, -, -⟩
    · exact ⟨h1, h2, h3⟩
    · rw [hfp] at hq; cases hq
  · rcases hd with ⟨h0, -, -, -⟩ | ⟨q', hq', hposq, hbit⟩
    · rw [h0] at hq; cases hq
    · rw [hq] at hq'
      injection hq' with hqq
      subst hqq
      exact ⟨hposq, hbit⟩

/-- Witness for C2 at concrete runs over `exampleBuf`: decoding the pointer at
position 16 leaves the cursor at 18 = 16 + 2 (two past the pointer, not past
the chased target), and decoding the plain name at position 0 leaves the
cursor at 16, just past the terminating zero at 15. -/
theorem read_qname_cursor_witness :
    read_qname ⟨exampleBuf, 16⟩ "" =
      some (.ok (), ⟨exampleBuf, 18⟩, "www.google.com") ∧
    (18 : Nat) = 16 + 2 ∧ exampleBuf 16 &&& 0xC0 = 0xC0 ∧
    read_qname ⟨exampleBuf, 0⟩ "" =
      some (.ok (), ⟨exampleBuf, 16⟩, "www.google.com") ∧
    (0 : Nat) < 16 ∧ exampleBuf (16 - 1) = 0 ∧ (16 : Nat) - 1 < 512 :=
  ⟨(read_qname_cursor ⟨exampleBuf, 16⟩ ""
      (show readQnameLoopI ⟨exampleBuf, 16⟩ 4096 16 false 0 "" "" none =
        some (.ok (), ⟨exampleBuf, 18⟩, "www.google.com", 1, some 16) from rfl)).1,
   ((read_qname_cursor ⟨exampleBuf, 16⟩ ""
      (show readQnameLoopI ⟨exampleBuf, 16⟩ 4096 16 false 0 "" "" none =
        some (.ok (), ⟨exampleBuf, 18⟩, "www.google.com", 1, some 16) from rfl)).2.2.2
      16 rfl).1,
   ((read_qname_cursor ⟨exampleBuf, 16⟩ ""
      (show readQnameLoopI ⟨exampleBuf, 16⟩ 4096 16 false 0 "" "" none =
        some (.ok (), ⟨exampleBuf, 18⟩, "www.google.com", 1, some 16) from rfl)).2.2.2
      16 rfl).2,
   (read_qname_cursor ⟨exampleBuf, 0⟩ ""
      (show readQnameLoopI ⟨exampleBuf, 0⟩ 4096 0 false 0 "" "" none =
        some (.ok (), ⟨exampleBuf, 16⟩, "www.google.com", 0, none) from rfl)).1,
   ((read_qname_cursor ⟨exampleBuf, 0⟩ ""
      (show readQnameLoopI ⟨exampleBuf, 0⟩ 4096 0 false 0 "" "" none =
        some (.ok (), ⟨exampleBuf, 16⟩, "www.google.com", 0, none) from rfl)).2.2.1
      rfl).1,
   ((read_qname_cursor ⟨exampleBuf, 0⟩ ""
      (show readQnameLoopI ⟨exampleBuf, 0⟩ 4096 0 false 0 "" "" none =
        some (.ok (), ⟨exampleBuf, 16⟩, "www.google.com", 0, none) from rfl)).2.2.1
      rfl).2.1,
   ((read_qname_cursor ⟨exampleBuf, 0⟩ ""
      (show readQnameLoopI ⟨exampleBuf, 0⟩ 4096 0 false 0 "" "" none =
        some (.ok (), ⟨exampleBuf, 16⟩, "www.google.com", 0, none) from rfl)).2.2.1
      rfl).2.2⟩

end BytePacketBuffer

/-- Wire length of an encoded label sequence: one length byte per label plus
its content bytes, plus the terminating zero length byte. -/
def encLen : List (List Nat) → Nat
  | [] => 1
  | l :: ls => 1 + l.length + encLen ls

/-- Joining a list of strings with single `.` separators, no leading or
trailing separator. -/
def joinDot : List String → String
  | [] => ""
  | [s] => s
  | s :: s2 :: rest => s ++ "." ++ joinDot (s2 :: rest)

/-- What the loop appends for a label list, given the delimiter in force
before the first of these labels (empty for the very first label of a name,
`"."` afterwards). -/
def labelsAppend (delim : String) : List (List Nat) → String
  | [] => ""
  | labels => delim ++ joinDot (labels.map asciiLower)

/-- `encodesAt buf pos labels` checks that the buffer encodes, from `pos` on,
exactly the given labels as an uncompressed sequence terminated by a zero
length byte: each length byte is the label's length (nonzero, below `0xC0`, so
not a compression pointer), the content bytes match, the whole range is in
bounds, and the content bytes are ASCII (where the model of the source's
lossy-UTF-8 + lowercase rendering is exact). -/
def encodesAt (buf : Nat → Nat) : Nat → List (List Nat) → Bool
  | pos, [] => decide (pos < 512) && (buf pos == 0)
  | pos, l :: ls =>
    decide (pos < 512) && (buf pos == l.length) && decide (0 < l.length) &&
    decide (l.length < 192) && decide (pos + 1 + l.length < 512) &&
    ((List.range l.length).all fun i => buf (pos + 1 + i) == l.getD i 0) &&
    (l.all fun b => decide (b < 128)) &&
    encodesAt buf (pos + 1 + l.length) ls

/-- An encoded label sequence occupies at least two bytes per label before the
terminator, all below the capacity. -/
theorem encodesAt_length_bound :
    ∀ (labels : List (List Nat)) (buf : Nat → Nat) (pos : Nat),
    encodesAt buf pos labels = true → pos + 2 * labels.length < 512 := by
  intro labels
  induction labels with
  | nil =>
    intro buf pos h
    simp only [encodesAt, Bool.and_eq_true, decide_eq_true_eq] at h
    simpa using h.1
  | cons l ls ih =>
    intro buf pos h
    simp only [encodesAt, Bool.and_eq_true, decide_eq_true_eq] at h
    obtain ⟨⟨⟨⟨⟨⟨-, h3⟩, -⟩, -⟩, -⟩, -⟩, h8⟩ := h
    have hrec := ih buf (pos + 1 + l.length) h8
    simp only [List.length_cons]
    omega

namespace BytePacketBuffer

/-- Running the decode loop over an uncompressed label sequence appends the
delimiter and the dot-joined lowercased labels, and (when not already jumped)
leaves the cursor just past the terminating zero byte. -/
theorem readQnameLoop_encodes :
    ∀ (labels : List (List Nat)) (fuel : Nat) (self : BytePacketBuffer)
      (pos : Nat) (jumped : Bool) (jumps : Nat) (delim outstr : String),
    encodesAt self.buf pos labels = true →
    jumps ≤ 5 →
    labels.length + 1 ≤ fuel →
    readQnameLoop self fuel pos jumped jumps delim outstr =
      some (.ok (), (if jumped then self else seek self (pos + encLen labels)),
        outstr ++ labelsAppend delim labels) := by
  intro labels
  induction labels with
  | nil =>
    intro fuel self pos jumped jumps delim outstr h hj hf
    simp only [encodesAt, Bool.and_eq_true, decide_eq_true_eq, beq_iff_eq] at h
    obtain ⟨h1, h2⟩ := h
    cases fuel with
    | zero => omega
    | succ n =>
      unfold readQnameLoop
      rw [if_neg (by omega)]
      simp only [get_of_lt h1, h2]
      norm_num [encLen, labelsAppend, String.append_empty]
  | cons l ls ih =>
    intro fuel self pos jumped jumps delim outstr h hj hf
    simp only [encodesAt, Bool.and_eq_true, decide_eq_true_eq, beq_iff_eq,
      List.all_eq_true, List.mem_range] at h
    obtain ⟨⟨⟨⟨⟨⟨⟨h1, h2⟩, h3⟩, h4⟩, h5⟩, h6⟩, h7⟩, h8⟩ := h
    cases fuel with
    | zero => simp only [List.length_cons] at hf; omega
    | succ n =>
      unfold readQnameLoop
      rw [if_neg (by omega)]
      simp only [get_of_lt h1, h2]
      have hnc : ¬ ((l.length &&& 0xC0 == 0xC0) = true) := by
        simp only [beq_iff_eq]
        intro hcc
        have hle : l.length &&& 192 ≤ l.length := Nat.and_le_left
        omega
      rw [if_neg hnc]
      have hnz : ¬ ((l.length == 0) = true) := by
        simp only [beq_iff_eq]
        omega
      rw [if_neg hnz]
      rw [get_range_of_lt (by omega)]
      have hbytes : (List.range l.length).map
          (fun i => self.buf (pos + 1 + i)) = l := by
        apply List.ext_getElem
        · simp
        · intro i hi1 hi2
          simp only [List.getElem_map, List.getElem_range]
          rw [h6 i (by simpa using hi1), List.getD_eq_getElem]
      simp only [hbytes]
      rw [ih n self (pos + 1 + l.length) jumped jumps "."
        (outstr ++ delim ++ asciiLower l) h8 hj
        (by simpa using hf)]
      refine congrArg some ?_
      simp only [Prod.mk.injEq, true_and]
      constructor
      · cases jumped with
        | true => rfl
        | false =>
          simp only [Bool.false_eq_true, if_neg]
          refine congrArg (seek self) ?_
          simp only [encLen]
          omega
      · cases ls with
        | nil =>
          simp [labelsAppend, joinDot, String.append_empty, String.append_assoc]
        | cons l2 t =>
          simp [labelsAppend, joinDot, String.append_assoc]

end BytePacketBuffer

/-- Wire bytes `3 "WWW" 0` (uppercase content) at position 0, zero padded. -/
def upperWWWBuf : Nat → Nat := fun i => [3, 87, 87, 87, 0].getD i 0

namespace BytePacketBuffer

/-- C4: for every buffer encoding an uncompressed label sequence at the
cursor, `read_qname` appends exactly the lowercased labels joined by single
`.` separators (no leading or trailing separator) and leaves the cursor just
past the terminating zero byte, `encLen labels` bytes further. -/
theorem read_qname_labels (self : BytePacketBuffer) (labels : List (List Nat))
    (outstr : String) (h : encodesAt self.buf self.pos labels = true) :
    read_qname self outstr =
      some (.ok (), seek self (self.pos + encLen labels),
        outstr ++ joinDot (labels.map asciiLower)) := by
  have hb := encodesAt_length_bound labels self.buf self.pos h
  have hrun := readQnameLoop_encodes labels 4096 self self.pos false 0 "" outstr
    h (by omega) (by omega)
  rw [read_qname, hrun]
  cases labels with
  | nil => simp [labelsAppend, joinDot]
  | cons l ls => simp [labelsAppend, String.empty_append]

/-- Witness for C4: the buffer with `3 "www" 6 "google" 3 "com" 0` at 0
decodes at 0 to `"www.google.com"` with the cursor left at 16, and a label
with uppercase content `"WWW"` decodes to `"www"`. -/
theorem read_qname_labels_witness :
    read_qname ⟨exampleBuf, 0⟩ "" =
      some (.ok (), ⟨exampleBuf, 16⟩, "www.google.com") ∧
    read_qname ⟨upperWWWBuf, 0⟩ "" = some (.ok (), ⟨upperWWWBuf, 5⟩, "www") :=
  ⟨read_qname_labels ⟨exampleBuf, 0⟩
      [[119, 119, 119], [103, 111, 111, 103, 108, 101], [99, 111, 109]] ""
      (by decide),
   read_qname_labels ⟨upperWWWBuf, 0⟩ [[87, 87, 87]] "" (by decide)⟩

end BytePacketBuffer
